import Mathlib

/-!
Verification of the Kaggle dataset import pipeline (`kaggle_import.py`) of
repository `db_lab5_Chychuk`: entity resolution (find-or-create with LRU
caching), date parsing, batched transactional import.
-/

namespace DbLab

/-! ## Database table model

A table is a list of rows, each a primary key paired with the natural-key
value (the tuple of non-key column values used by the resolver).  `nextPk`
models the sequence generating fresh primary keys (`RETURNING pk`). -/
structure Table (α : Type) where
  rows : List (Nat × α)
  nextPk : Nat
deriving DecidableEq

/-- The `SELECT pk FROM table WHERE cols = vals LIMIT 1`: first row whose value
columns all equal `vs`. -/
def findRow {α : Type} [DecidableEq α] (t : Table α) (vs : α) : Option (Nat × α) :=
  t.rows.find? (fun r => r.2 = vs)

/-- The primary key of the first row matching `vs`, if any. -/
def findPk {α : Type} [DecidableEq α] (t : Table α) (vs : α) : Option Nat :=
  (findRow t vs).map (·.1)

/-- Result of one `db_searcher` call: the returned primary key, the table
afterwards, and whether an `INSERT` was executed. -/
structure SearchResult (α : Type) where
  pk : Nat
  table : Table α
  inserted : Bool
deriving DecidableEq

/-- The `db_searcher` produced by the `db_atomic_search` decorator: run the
equality-conditioned `SELECT ... LIMIT 1`; if no row is found, `INSERT` a new
row with exactly the given values and return the generated key. -/
def db_searcher {α : Type} [DecidableEq α] (t : Table α) (vs : α) : SearchResult α :=
  match findRow t vs with
  | some r => ⟨r.1, t, false⟩
  | none => ⟨t.nextPk, ⟨t.rows ++ [(t.nextPk, vs)], t.nextPk + 1⟩, true⟩

/-! ## LRU cache model (`functools.lru_cache`)

Entries are kept most-recently-used first.  A hit moves the entry to the
front; a miss inserts at the front and, once the capacity is exceeded,
discards from the tail (the least recently used entry). -/
structure Lru (α : Type) where
  entries : List (α × Nat)
  maxsize : Nat
deriving DecidableEq

def Lru.lookup {α : Type} [DecidableEq α] (c : Lru α) (k : α) : Option Nat :=
  (c.entries.find? (fun e => e.1 = k)).map (·.2)

def Lru.put {α : Type} [DecidableEq α] (c : Lru α) (k : α) (v : Nat) : Lru α :=
  ⟨((k, v) :: c.entries.filter (fun e => e.1 ≠ k)).take c.maxsize, c.maxsize⟩

/-- State of one memoised resolver: its `lru_cache` plus the table it
searches. -/
structure RState (α : Type) where
  cache : Lru α
  table : Table α
deriving DecidableEq

/-- One call of a cached resolver (`get_attack_id`, `get_place_id`,
`get_target_id`, `get_missile_id`): on a cache hit the stored key is returned
and the database is not touched; on a miss `db_searcher` runs and its result
is cached.  Returns (key, new state, whether a row was inserted). -/
def resolve {α : Type} [DecidableEq α] (s : RState α) (k : α) : Nat × RState α × Bool :=
  match s.cache.lookup k with
  | some v => (v, ⟨s.cache.put k v, s.table⟩, false)
  | none =>
    let r := db_searcher s.table k
    (r.pk, ⟨s.cache.put k r.pk, r.table⟩, r.inserted)

/-- A sequence of resolver calls, threading the state. -/
def runResolves {α : Type} [DecidableEq α] (s : RState α) : List α → List Nat × RState α
  | [] => ([], s)
  | k :: ks =>
    let r := resolve s k
    let rest := runResolves r.2.1 ks
    (r.1 :: rest.1, rest.2)

/-- Number of rows of `t` whose value columns equal `k`. -/
def countMatch {α : Type} [DecidableEq α] (t : Table α) (k : α) : Nat :=
  (t.rows.filter (fun r => r.2 = k)).length

/-- Cache coherence: every cached entry agrees with what the table search
would return. -/
def Coherent {α : Type} [DecidableEq α] (s : RState α) : Prop :=
  ∀ e ∈ s.cache.entries, findPk s.table e.1 = some e.2

/-! ## Date parsing (`get_datetime`)

`get_datetime` calls `datetime.strptime(raw_str, '%Y-%m-%d' + (' %H:%M' if
':' in raw_str else ''))`.  We embed CPython's `strptime` for these two
formats: `%Y` is exactly four digits; `%m` matches `1[0-2]|0[1-9]|[1-9]`;
`%d` matches `3[01]|[12]\d|0[1-9]|[1-9]`; `%H` matches `2[0-3]|[0-1]\d|\d`;
`%M` matches `[0-5]\d|\d` (alternatives tried in order, with backtracking);
the whole string must be consumed, and the `datetime` constructor validates
the calendar date.  Fields absent from the format default to zero. -/
structure DateTime where
  year : Nat
  month : Nat
  day : Nat
  hour : Nat
  minute : Nat
deriving DecidableEq

/-- Numeric value of a digit character. -/
def dval (c : Char) : Nat := c.toNat - 48

/-- The `%Y`: exactly four digits. -/
def parseYear : List Char → Option (Nat × List Char)
  | a :: b :: c :: d :: rest =>
    if a.isDigit ∧ b.isDigit ∧ c.isDigit ∧ d.isDigit then
      some (dval a * 1000 + dval b * 100 + dval c * 10 + dval d, rest)
    else none
  | _ => none

/-- A literal character of the format string. -/
def litChar (c : Char) : List Char → Option (List Char)
  | x :: rest => if x = c then some rest else none
  | [] => none

/-- The `%m` alternatives `1[0-2]|0[1-9]|[1-9]`, in regex order. -/
def altsMonth : List Char → List (Nat × List Char)
  | a :: b :: rest =>
    (if a = '1' ∧ b.isDigit ∧ dval b ≤ 2 then [(10 + dval b, rest)] else []) ++
    (if a = '0' ∧ b.isDigit ∧ 1 ≤ dval b then [(dval b, rest)] else []) ++
    (if a.isDigit ∧ 1 ≤ dval a then [(dval a, b :: rest)] else [])
  | [a] => if a.isDigit ∧ 1 ≤ dval a then [(dval a, [])] else []
  | [] => []

/-- The `%d` alternatives `3[01]|[12]\d|0[1-9]|[1-9]`, in regex order. -/
def altsDay : List Char → List (Nat × List Char)
  | a :: b :: rest =>
    (if a = '3' ∧ b.isDigit ∧ dval b ≤ 1 then [(30 + dval b, rest)] else []) ++
    (if (a = '1' ∨ a = '2') ∧ b.isDigit then [(10 * dval a + dval b, rest)] else []) ++
    (if a = '0' ∧ b.isDigit ∧ 1 ≤ dval b then [(dval b, rest)] else []) ++
    (if a.isDigit ∧ 1 ≤ dval a then [(dval a, b :: rest)] else [])
  | [a] => if a.isDigit ∧ 1 ≤ dval a then [(dval a, [])] else []
  | [] => []

/-- The `%H` alternatives `2[0-3]|[0-1]\d|\d`, in regex order. -/
def altsHour : List Char → List (Nat × List Char)
  | a :: b :: rest =>
    (if a = '2' ∧ b.isDigit ∧ dval b ≤ 3 then [(20 + dval b, rest)] else []) ++
    (if (a = '0' ∨ a = '1') ∧ b.isDigit then [(10 * dval a + dval b, rest)] else []) ++
    (if a.isDigit then [(dval a, b :: rest)] else [])
  | [a] => if a.isDigit then [(dval a, [])] else []
  | [] => []

/-- The `%M` alternatives `[0-5]\d|\d`, in regex order. -/
def altsMinute : List Char → List (Nat × List Char)
  | a :: b :: rest =>
    (if a.isDigit ∧ dval a ≤ 5 ∧ b.isDigit then [(10 * dval a + dval b, rest)] else []) ++
    (if a.isDigit then [(dval a, b :: rest)] else [])
  | [a] => if a.isDigit then [(dval a, [])] else []
  | [] => []

/-- Python regex `\s` (ASCII range), as used for whitespace in the format. -/
def isPySpace (c : Char) : Bool :=
  c = ' ' ∨ c = '\t' ∨ c = '\n' ∨ c = '\x0d' ∨ c = '\x0c' ∨ c = '\x0b'

/-- Whitespace in a `strptime` format matches `\s+`: at least one whitespace
character, consumed greedily (the next token is a digit, so greediness never
needs undoing). -/
def parseWs : List Char → Option (List Char)
  | c :: rest => if isPySpace c then some (rest.dropWhile isPySpace) else none
  | [] => none

/-- Try the alternatives of a group in order; the first one under which the
rest of the pattern succeeds wins (regex backtracking). -/
def firstSome {β : Type} (alts : List (Nat × List Char))
    (k : Nat → List Char → Option β) : Option β :=
  match alts with
  | [] => none
  | (v, rest) :: more =>
    match k v rest with
    | some r => some r
    | none => firstSome more k

/-- Full match of `%Y-%m-%d` against the whole string. -/
def matchDateOnly (s : List Char) : Option (Nat × Nat × Nat) :=
  match parseYear s with
  | none => none
  | some (y, s1) =>
    match litChar '-' s1 with
    | none => none
    | some s2 =>
      firstSome (altsMonth s2) (fun m s3 =>
        match litChar '-' s3 with
        | none => none
        | some s4 =>
          firstSome (altsDay s4) (fun d s5 =>
            if s5 = [] then some (y, m, d) else none))

/-- Full match of `%Y-%m-%d %H:%M` against the whole string. -/
def matchDateTime (s : List Char) : Option (Nat × Nat × Nat × Nat × Nat) :=
  match parseYear s with
  | none => none
  | some (y, s1) =>
    match litChar '-' s1 with
    | none => none
    | some s2 =>
      firstSome (altsMonth s2) (fun m s3 =>
        match litChar '-' s3 with
        | none => none
        | some s4 =>
          firstSome (altsDay s4) (fun d s5 =>
            match parseWs s5 with
            | none => none
            | some s6 =>
              firstSome (altsHour s6) (fun h s7 =>
                match litChar ':' s7 with
                | none => none
                | some s8 =>
                  firstSome (altsMinute s8) (fun mi s9 =>
                    if s9 = [] then some (y, m, d, h, mi) else none))))

def isLeap (y : Nat) : Bool :=
  (y % 4 = 0 && y % 100 ≠ 0) || y % 400 = 0

def daysInMonth (y m : Nat) : Nat :=
  if m = 2 then (if isLeap y then 29 else 28)
  else if m = 4 ∨ m = 6 ∨ m = 9 ∨ m = 11 then 30
  else 31

/-- The `datetime(...)` constructor: validates ranges, in particular the day
against the month's length. -/
def mkDateTime (y m d h mi : Nat) : Option DateTime :=
  if 1 ≤ y ∧ y ≤ 9999 ∧ 1 ≤ m ∧ m ≤ 12 ∧ 1 ≤ d ∧ d ≤ daysInMonth y m ∧
      h ≤ 23 ∧ mi ≤ 59 then
    some ⟨y, m, d, h, mi⟩
  else none

/-- The `strptime` with format `'%Y-%m-%d'`: hour and minute default to 0. -/
def strptimeDate (s : List Char) : Option DateTime :=
  match matchDateOnly s with
  | none => none
  | some (y, m, d) => mkDateTime y m d 0 0

/-- The `strptime` with format `'%Y-%m-%d %H:%M'`. -/
def strptimeDateTime (s : List Char) : Option DateTime :=
  match matchDateTime s with
  | none => none
  | some (y, m, d, h, mi) => mkDateTime y m d h mi

/-- The `get_datetime`: format chosen by the presence of a colon. -/
def get_datetime (s : String) : Option DateTime :=
  if s.data.contains ':' then strptimeDateTime s.data else strptimeDate s.data

/-! ## Entity-specific resolvers

Cache capacities as declared in the source: `get_attack_id` is wrapped in
`@lru_cache(maxsize=1)`; `get_place_id`, `get_target_id` and
`get_missile_id` in `@lru_cache(maxsize=500)`. -/
/-- Natural key of the `attacks` table:
(start_datetime, end_datetime, info_source). -/
abbrev AttackKey : Type := DateTime × DateTime × String

/-- The `@lru_cache(maxsize=1)` on `get_attack_id`, initially empty. -/
def attackCacheInit : Lru AttackKey := ⟨[], 1⟩

/-- The `@lru_cache(maxsize=500)` on `get_place_id`, initially empty. -/
def placeCacheInit : Lru String := ⟨[], 500⟩

/-- The `@lru_cache(maxsize=500)` on `get_target_id`, initially empty. -/
def targetCacheInit : Lru String := ⟨[], 500⟩

/-- The `@lru_cache(maxsize=500)` on `get_missile_id`, initially empty. -/
def missileCacheInit : Lru String := ⟨[], 500⟩

/-! ## Multi-valued field splitting (`str.split(' and ')`)

Python's `str.split(sep)` cuts at each leftmost occurrence of the literal
separator; a string with no occurrence yields a one-element list, and the
empty string yields `[""]`. -/
/-- The literal separator `" and "`. -/
def sepAnd : List Char := [' ', 'a', 'n', 'd', ' ']

/-- Does `p` occur at the head of `s`? -/
def leadsWith : List Char → List Char → Bool
  | [], _ => true
  | _ :: _, [] => false
  | p :: ps, c :: cs => p = c && leadsWith ps cs

/-- Index of the leftmost occurrence of `" and "` in `s`, if any. -/
def findSep : List Char → Option Nat
  | [] => none
  | c :: rest =>
    if leadsWith sepAnd (c :: rest) then some 0
    else (findSep rest).map (· + 1)

/-- Splitting with explicit fuel; one unit of fuel per produced separator.
`splitAnd` supplies fuel `s.length`, which always suffices since every cut
consumes the five separator characters. -/
def splitFromF : Nat → List Char → List (List Char)
  | 0, s => [s]
  | fuel + 1, s =>
    match findSep s with
    | none => [s]
    | some i => s.take i :: splitFromF fuel (s.drop (i + 5))

/-- The `value.split(' and ')`. -/
def splitAnd (s : String) : List String :=
  (splitFromF s.data.length s.data).map fun l => ⟨l⟩

/-- Whether the separator occurs in the string at all. -/
def hasAnd (s : String) : Bool := (findSep s.data).isSome

/-! ## Records, database state and the import driver -/
/-- One source-dataset row, as the eight text fields the importer reads. -/
structure Rec where
  time_start : String
  time_end : String
  source : String
  launched : String
  destroyed : String
  launch_place : String
  target : String
  model : String
deriving DecidableEq

/-- One `attack_groups` row: fact group with launched/destroyed counts
carried verbatim (no numeric validation). -/
structure GroupRow where
  group_id : Nat
  attack_id : Nat
  units_launched : String
  units_destroyed : String
deriving DecidableEq

/-- The database: the four resolver tables, the fact-group table with its
key sequence, and the three association tables. -/
structure DB where
  attacks : Table AttackKey
  launch_places : Table String
  potential_targets : Table String
  missiles : Table String
  attack_groups : List GroupRow
  next_group_id : Nat
  group_launch_places : List (Nat × Nat)
  group_targets : List (Nat × Nat)
  group_missiles : List (Nat × Nat)
deriving DecidableEq

/-- The four module-level `lru_cache` states. -/
structure Caches where
  attack : Lru AttackKey
  place : Lru String
  target : Lru String
  missile : Lru String
deriving DecidableEq

/-- The caches as initialised at module import. -/
def cachesInit : Caches :=
  ⟨attackCacheInit, placeCacheInit, targetCacheInit, missileCacheInit⟩

/-- Errors the import run can raise: a `strptime` parse failure, or the
`ValueError` raised by `islice` for a negative block size. -/
inductive ImpError
  | parseError (s : String)
  | badBlockSize
deriving DecidableEq

/-- Observable database statements, in execution order. -/
inductive Op
  | resolveAttack (k : AttackKey) (pk : Nat)
  | insertGroup (gid aid : Nat)
  | insertPlaceAssoc (gid pid : Nat)
  | insertTargetAssoc (gid tid : Nat)
  | insertMissileAssoc (gid mid : Nat)
deriving DecidableEq

/-- The body of one `for <name> in data_row[field].split(' and ')` loop:
resolve each name in order and append one association row per name.
Returns the resolver state, the association rows added, and the trace. -/
def addAssocs (mk : Nat → Nat → Op) (gid : Nat) (st : RState String) :
    List String → RState String × List (Nat × Nat) × List Op
  | [] => (st, [], [])
  | n :: ns =>
    let r := resolve st n
    let rest := addAssocs mk gid r.2.1 ns
    (rest.1, (gid, r.1) :: rest.2.1, mk gid r.1 :: rest.2.2)

/-- Processing of one record inside the chunk loop: parse the two period
boundaries, resolve the event period, insert the fact-group row, then
places, targets, missiles.  A parse failure raises before any statement of
this record executes. -/
def processRecord (pre : String) (cs : Caches) (db : DB) (r : Rec) :
    Except ImpError (Caches × DB × List Op) :=
  match get_datetime r.time_start with
  | none => .error (.parseError r.time_start)
  | some sdt =>
    match get_datetime r.time_end with
    | none => .error (.parseError r.time_end)
    | some edt =>
      let akey : AttackKey := (sdt, edt, pre ++ r.source)
      let ra := resolve ⟨cs.attack, db.attacks⟩ akey
      let gid := db.next_group_id
      let rp := addAssocs Op.insertPlaceAssoc gid ⟨cs.place, db.launch_places⟩
        (splitAnd r.launch_place)
      let rt := addAssocs Op.insertTargetAssoc gid ⟨cs.target, db.potential_targets⟩
        (splitAnd r.target)
      let rm := addAssocs Op.insertMissileAssoc gid ⟨cs.missile, db.missiles⟩
        (splitAnd r.model)
      .ok (⟨ra.2.1.cache, rp.1.cache, rt.1.cache, rm.1.cache⟩,
           { attacks := ra.2.1.table,
             launch_places := rp.1.table,
             potential_targets := rt.1.table,
             missiles := rm.1.table,
             attack_groups := db.attack_groups ++ [⟨gid, ra.1, r.launched, r.destroyed⟩],
             next_group_id := gid + 1,
             group_launch_places := db.group_launch_places ++ rp.2.1,
             group_targets := db.group_targets ++ rt.2.1,
             group_missiles := db.group_missiles ++ rm.2.1 },
           Op.resolveAttack akey ra.1 :: Op.insertGroup gid ra.1 ::
             (rp.2.2 ++ rt.2.2 ++ rm.2.2))

/-- The records of one chunk, in source-sequence order; the first failure
aborts the rest of the chunk. -/
def processChunk (pre : String) (cs : Caches) (db : DB) :
    List Rec → Except ImpError (Caches × DB × List Op)
  | [] => .ok (cs, db, [])
  | r :: rs =>
    match processRecord pre cs db r with
    | .error e => .error e
    | .ok (cs', db', ops) =>
      match processChunk pre cs' db' rs with
      | .error e => .error e
      | .ok (cs'', db'', ops') => .ok (cs'', db'', ops ++ ops')

/-- The `while True` loop of `import_dataset`: slice off up to `b` records;
an empty slice terminates; otherwise the chunk runs inside `with db_conn:`,
which commits the chunk's writes on success and rolls all of them back if
any record raises (the error then propagates, ending the run).  The first
result component is the per-chunk record counts, one per committed chunk
(the printed block reports).  The fuel argument only bounds the number of
iterations; `import_dataset` supplies `recs.length + 1`, which is never
exhausted since every iteration either terminates or consumes at least one
record.  The returned `Caches` value on the error path is not significant:
the real caches are module globals, not a result of the aborted call. -/
def importLoopF (pre : String) (b : Nat) : Nat → DB → Caches → List Rec →
    List Nat × DB × Caches × Option ImpError
  | 0, db, cs, _ => ([], db, cs, none)
  | fuel + 1, db, cs, recs =>
    let block := recs.take b
    if block = [] then ([], db, cs, none)
    else
      match processChunk pre cs db block with
      | .error e => ([], db, cs, some e)
      | .ok (cs', db', _) =>
        let rest := importLoopF pre b fuel db' cs' (recs.drop b)
        (block.length :: rest.1, rest.2)

/-- The `import_dataset`: a negative block size makes the first `islice` call
raise `ValueError` before any record is consumed or statement executed. -/
def import_dataset (pre : String) (db : DB) (cs : Caches) (recs : List Rec)
    (block_size : Int) : List Nat × DB × Caches × Option ImpError :=
  if block_size < 0 then ([], db, cs, some .badBlockSize)
  else importLoopF pre block_size.toNat (recs.length + 1) db cs recs

/-- The chunk decomposition the loop walks through. -/
def chunkifyF (b : Nat) : Nat → List Rec → List (List Rec)
  | 0, _ => []
  | fuel + 1, recs =>
    if recs.take b = [] then []
    else recs.take b :: chunkifyF b fuel (recs.drop b)

def chunkify (b : Nat) (recs : List Rec) : List (List Rec) :=
  chunkifyF b (recs.length + 1) recs

/-- Both period-boundary fields of the record parse. -/
def recOk (r : Rec) : Bool :=
  (get_datetime r.time_start).isSome && (get_datetime r.time_end).isSome

/-- Reference composition: commit the chunks one after the other (identity
on a failing chunk; only used where every chunk succeeds). -/
def commitChunks (pre : String) (cs : Caches) (db : DB) :
    List (List Rec) → Caches × DB
  | [] => (cs, db)
  | c :: rest =>
    match processChunk pre cs db c with
    | .error _ => (cs, db)
    | .ok (cs', db', _) => commitChunks pre cs' db' rest

/-- The empty database. -/
def emptyDB : DB := ⟨⟨[], 0⟩, ⟨[], 0⟩, ⟨[], 0⟩, ⟨[], 0⟩, [], 0, [], [], []⟩

/-- A concrete well-formed record with two launch places. -/
def recW : Rec := ⟨"2022-03-01", "2022-03-01 14:30", "UAF", "10", "8",
  "Crimea and Kherson Oblast", "airfield", "Shahed-136"⟩

/-- A concrete well-formed record whose multi-valued fields are all empty. -/
def recE : Rec := ⟨"2022-03-01", "2022-03-02", "src", "5", "3", "", "", ""⟩

/-- A concrete record whose start string fails to parse. -/
def recBad : Rec := ⟨"not-a-date", "2022-03-02", "src", "5", "3", "a", "b", "c"⟩

/-! ## Theorems -/

/-! ## Basic lemmas about the search -/
theorem findRow_mem {α : Type} [DecidableEq α] {t : Table α} {vs : α} {r : Nat × α}
    (h : findRow t vs = some r) : r ∈ t.rows ∧ r.2 = vs := by
  unfold findRow at h
  refine ⟨List.mem_of_find?_eq_some h, ?_⟩
  have := List.find?_some h
  exact of_decide_eq_true this

theorem findRow_eq_none_iff {α : Type} [DecidableEq α] {t : Table α} {vs : α} :
    findRow t vs = none ↔ ∀ r ∈ t.rows, r.2 ≠ vs := by
  unfold findRow
  rw [List.find?_eq_none]
  constructor
  · intro h r hr
    have := h r hr
    simpa using this
  · intro h r hr
    simpa using h r hr

/-- Claim C1: The resolver built by `db_atomic_search` is a pure find-or-create:
existing rows are never updated, merged or removed; when a row whose listed
columns equal the given values exists, its primary key is returned and
nothing is inserted; otherwise a single new row with exactly those field
values is appended and the freshly generated key is returned. -/
theorem db_searcher_find_or_create {α : Type} [DecidableEq α] (t : Table α) (vs : α) :
    let res := db_searcher t vs
    (∀ r ∈ t.rows, r ∈ res.table.rows) ∧
    ((∃ r ∈ t.rows, r.2 = vs) →
      res.table = t ∧ res.inserted = false ∧ ∃ r ∈ t.rows, r.2 = vs ∧ r.1 = res.pk) ∧
    ((¬ ∃ r ∈ t.rows, r.2 = vs) →
      res.table.rows = t.rows ++ [(res.pk, vs)] ∧ res.pk = t.nextPk ∧ res.inserted = true) := by
  intro res
  unfold res db_searcher
  cases hf : findRow t vs with
  | some r =>
    obtain ⟨hmem, hval⟩ := findRow_mem hf
    refine ⟨fun r' hr' => hr', fun _ => ⟨rfl, rfl, r, hmem, hval, rfl⟩, fun hno => ?_⟩
    exact absurd ⟨r, hmem, hval⟩ hno
  | none =>
    have hnone := findRow_eq_none_iff.mp hf
    refine ⟨fun r' hr' => List.mem_append_left _ hr', fun hex => ?_, fun _ => ⟨rfl, rfl, rfl⟩⟩
    obtain ⟨r, hr, hv⟩ := hex
    exact absurd hv (hnone r hr)

/-! ### Lemmas about caches and resolution -/
theorem Lru.mem_put {α : Type} [DecidableEq α] {c : Lru α} {k : α} {v : Nat}
    {e : α × Nat} (h : e ∈ (c.put k v).entries) : e = (k, v) ∨ e ∈ c.entries := by
  unfold Lru.put at h
  have h' := List.mem_of_mem_take h
  rcases List.mem_cons.mp h' with h'' | h''
  · exact Or.inl h''
  · exact Or.inr (List.mem_of_mem_filter h'')

theorem Lru.length_put_le {α : Type} [DecidableEq α] (c : Lru α) (k : α) (v : Nat) :
    (c.put k v).entries.length ≤ c.maxsize :=
  List.length_take_le _ _

theorem Lru.maxsize_put {α : Type} [DecidableEq α] (c : Lru α) (k : α) (v : Nat) :
    (c.put k v).maxsize = c.maxsize := rfl

theorem Lru.lookup_mem {α : Type} [DecidableEq α] {c : Lru α} {k : α} {v : Nat}
    (h : c.lookup k = some v) : (k, v) ∈ c.entries := by
  unfold Lru.lookup at h
  cases hf : c.entries.find? (fun e => e.1 = k) with
  | none => rw [hf] at h; exact absurd h (by simp)
  | some e =>
    rw [hf] at h
    have hmem := List.mem_of_find?_eq_some hf
    have hkey : e.1 = k := by
      have hp := List.find?_some hf
      exact of_decide_eq_true hp
    have hval : e.2 = v := by simpa using h
    have : e = (k, v) := Prod.ext hkey hval
    rwa [this] at hmem

theorem findPk_append {α : Type} [DecidableEq α] {t t' : Table α}
    {ext : List (Nat × α)} {k : α} {v : Nat}
    (hrows : t'.rows = t.rows ++ ext) (h : findPk t k = some v) :
    findPk t' k = some v := by
  unfold findPk findRow at h ⊢
  rw [hrows, List.find?_append]
  cases hf : t.rows.find? (fun r => r.2 = k) with
  | none => rw [hf] at h; exact absurd h (by simp)
  | some r => rw [hf] at h; simpa using h

/-- Resolving only appends rows to the table: at most one, valued at the
resolved key. -/
theorem resolve_table_rows {α : Type} [DecidableEq α] (s : RState α) (k : α) :
    ∃ ext, (resolve s k).2.1.table.rows = s.table.rows ++ ext ∧
      ext.length ≤ 1 ∧ ∀ r ∈ ext, r.2 = k := by
  unfold resolve
  cases h : s.cache.lookup k with
  | some v => exact ⟨[], by simp⟩
  | none =>
    simp only
    unfold db_searcher
    cases hf : findRow s.table k with
    | some r => exact ⟨[], by simp⟩
    | none =>
      refine ⟨[(s.table.nextPk, k)], rfl, by simp, ?_⟩
      intro r hr
      rw [List.mem_singleton] at hr
      rw [hr]

theorem findPk_resolve_stable {α : Type} [DecidableEq α] {s : RState α} {k k' : α} {v : Nat}
    (h : findPk s.table k = some v) :
    findPk (resolve s k').2.1.table k = some v := by
  obtain ⟨ext, hext, -, -⟩ := resolve_table_rows s k'
  exact findPk_append hext h

theorem findPk_runResolves_stable {α : Type} [DecidableEq α] {s : RState α} {k : α} {v : Nat}
    (ks : List α) (h : findPk s.table k = some v) :
    findPk (runResolves s ks).2.table k = some v := by
  induction ks generalizing s with
  | nil => exact h
  | cons k' ks ih =>
    unfold runResolves
    exact ih (findPk_resolve_stable h)

/-- When the key is already present in the table, resolution returns the
table's key for it and performs no insert. -/
theorem resolve_of_found {α : Type} [DecidableEq α] {s : RState α} {k : α} {v : Nat}
    (hC : Coherent s) (h : findPk s.table k = some v) :
    (resolve s k).1 = v ∧ (resolve s k).2.2 = false ∧
      (resolve s k).2.1.table = s.table := by
  unfold resolve
  cases hl : s.cache.lookup k with
  | some v' =>
    have hmem := Lru.lookup_mem hl
    have := hC _ hmem
    simp only at this
    rw [h] at this
    exact ⟨by simpa using this.symm, rfl, rfl⟩
  | none =>
    simp only
    unfold db_searcher
    cases hf : findRow s.table k with
    | some r =>
      have : r.1 = v := by
        unfold findPk at h
        rw [hf] at h
        simpa using h

      exact ⟨this, rfl, rfl⟩
    | none =>
      unfold findPk at h
      rw [hf] at h
      exact absurd h (by simp)

/-- After any resolution, the table maps the key to the returned value. -/
theorem resolve_correct {α : Type} [DecidableEq α] {s : RState α} (hC : Coherent s) (k : α) :
    findPk (resolve s k).2.1.table k = some (resolve s k).1 := by
  cases h : findPk s.table k with
  | some v =>
    obtain ⟨hpk, _, htab⟩ := resolve_of_found hC h
    rw [hpk, htab, h]
  | none =>
    unfold resolve
    cases hl : s.cache.lookup k with
    | some v' =>
      have := hC _ (Lru.lookup_mem hl)
      simp only at this
      rw [h] at this
      exact absurd this (by simp)
    | none =>
      simp only
      unfold db_searcher
      cases hf : findRow s.table k with
      | some r =>
        unfold findPk at h
        rw [hf] at h
        exact absurd h (by simp)
      | none =>
        simp only [findPk, findRow, List.find?_append]
        unfold findRow at hf
        rw [hf]
        simp

/-- Resolution preserves cache coherence. -/
theorem resolve_coherent {α : Type} [DecidableEq α] {s : RState α} (hC : Coherent s) (k : α) :
    Coherent (resolve s k).2.1 := by
  intro e he
  have hcor := resolve_correct hC k
  rcases hk : resolve s k with ⟨pk, s', ins⟩
  rw [hk] at hcor he
  simp only at hcor he ⊢
  have hcache : s'.cache = s.cache.put k pk := by
    unfold resolve at hk
    cases hl : s.cache.lookup k with
    | some v => rw [hl] at hk; simp only at hk; cases hk; rfl
    | none =>
      rw [hl] at hk; simp only at hk; cases hk; rfl
  rw [hcache] at he
  rcases Lru.mem_put he with he' | he'
  · rw [he']
    exact hcor
  · have hold := hC _ he'
    have hstable := @findPk_resolve_stable _ _ s _ k _ hold
    rw [hk] at hstable
    exact hstable

theorem runResolves_coherent {α : Type} [DecidableEq α] {s : RState α} (hC : Coherent s)
    (ks : List α) : Coherent (runResolves s ks).2 := by
  induction ks generalizing s with
  | nil => exact hC
  | cons k' ks ih => exact ih (resolve_coherent hC k')

theorem countMatch_append {α : Type} [DecidableEq α] {t t' : Table α}
    {ext : List (Nat × α)} (k : α) (hrows : t'.rows = t.rows ++ ext) :
    countMatch t' k = countMatch t k + (ext.filter (fun r => r.2 = k)).length := by
  unfold countMatch
  rw [hrows, List.filter_append, List.length_append]

/-- Resolving a key already present in the table leaves the table untouched. -/
theorem resolve_table_of_found {α : Type} [DecidableEq α] {s : RState α} {k : α}
    (h : (findPk s.table k).isSome) :
    (resolve s k).2.1.table = s.table ∧ (resolve s k).2.2 = false := by
  unfold resolve
  cases hl : s.cache.lookup k with
  | some v => exact ⟨rfl, rfl⟩
  | none =>
    simp only
    unfold db_searcher
    cases hf : findRow s.table k with
    | some r => exact ⟨rfl, rfl⟩
    | none =>
      unfold findPk at h
      rw [hf] at h
      exact absurd h (by simp)

theorem countMatch_resolve_other {α : Type} [DecidableEq α] (s : RState α) {k k' : α}
    (hne : k' ≠ k) :
    countMatch (resolve s k').2.1.table k = countMatch s.table k := by
  obtain ⟨ext, hext, -, hvals⟩ := resolve_table_rows s k'
  rw [countMatch_append k hext]
  have : ext.filter (fun r => r.2 = k) = [] := by
    rw [List.filter_eq_nil_iff]
    intro r hr
    simp only [decide_eq_true_eq]
    rw [hvals r hr]
    exact hne
  rw [this]
  simp

theorem countMatch_resolve_le {α : Type} [DecidableEq α] (s : RState α) (k k' : α) :
    countMatch (resolve s k').2.1.table k ≤ countMatch s.table k + 1 := by
  obtain ⟨ext, hext, hlen, -⟩ := resolve_table_rows s k'
  rw [countMatch_append k hext]
  have := List.length_filter_le (fun r : Nat × α => decide (r.2 = k)) ext
  omega

/-- Once the key is present in the table, later resolutions never add another
matching row. -/
theorem countMatch_runResolves_stable {α : Type} [DecidableEq α] {s : RState α} {k : α}
    {v : Nat} (ks : List α) (h : findPk s.table k = some v) :
    countMatch (runResolves s ks).2.table k = countMatch s.table k := by
  induction ks generalizing s with
  | nil => rfl
  | cons k' ks ih =>
    unfold runResolves
    simp only
    rw [ih (findPk_resolve_stable h)]
    by_cases hk : k' = k
    · subst hk
      rw [(resolve_table_of_found (by rw [h]; rfl)).1]
    · exact countMatch_resolve_other s hk

/-- Claim C6: Idempotent lookup: for every entity kind (any key type `α`) and
natural-key tuple, resolving the same tuple twice within one run — with an
arbitrary sequence of other resolutions in between, so in particular whether
or not the cached entry was evicted — returns the same identity both times;
the second resolution performs no insert, and overall at most one row
matching the tuple is ever added to the table. -/
theorem resolve_idempotent {α : Type} [DecidableEq α] (s : RState α) (hC : Coherent s)
    (k : α) (ms : List α) :
    let r1 := resolve s k
    let s2 := (runResolves r1.2.1 ms).2
    let r2 := resolve s2 k
    r2.1 = r1.1 ∧ r2.2.2 = false ∧
      countMatch r2.2.1.table k ≤ countMatch s.table k + 1 := by
  intro r1 s2 r2
  have h1 : findPk r1.2.1.table k = some r1.1 := resolve_correct hC k
  have hC1 : Coherent r1.2.1 := resolve_coherent hC k
  have h2 : findPk s2.table k = some r1.1 := findPk_runResolves_stable ms h1
  have hC2 : Coherent s2 := runResolves_coherent hC1 ms
  obtain ⟨hpk, hins, htab⟩ := resolve_of_found hC2 h2
  refine ⟨hpk, hins, ?_⟩
  have hrun : countMatch s2.table k = countMatch r1.2.1.table k :=
    countMatch_runResolves_stable ms h1
  have hr2 : r2.2.1.table = s2.table := htab
  rw [hr2, hrun]
  exact countMatch_resolve_le s k k

/-- Witness for C6: a concrete place-resolver run (empty 500-entry cache,
empty table), resolving "Crimea", then "Kherson Oblast", then "Crimea"
again. -/
theorem resolve_idempotent_witness :
    (let s : RState String := ⟨⟨[], 500⟩, ⟨[], 0⟩⟩
     let r1 := resolve s "Crimea"
     let s2 := (runResolves r1.2.1 ["Kherson Oblast"]).2
     let r2 := resolve s2 "Crimea"
     r2.1 = r1.1 ∧ r2.2.2 = false ∧
       countMatch r2.2.1.table "Crimea" ≤ countMatch s.table "Crimea" + 1) :=
  resolve_idempotent ⟨⟨[], 500⟩, ⟨[], 0⟩⟩
    (fun e he => absurd he (List.not_mem_nil e)) "Crimea" ["Kherson Oblast"]

theorem mkDateTime_valid {y m d h mi : Nat} {dt : DateTime}
    (hmk : mkDateTime y m d h mi = some dt) :
    1 ≤ dt.year ∧ dt.year ≤ 9999 ∧ 1 ≤ dt.month ∧ dt.month ≤ 12 ∧
      1 ≤ dt.day ∧ dt.day ≤ daysInMonth dt.year dt.month ∧
      dt.hour ≤ 23 ∧ dt.minute ≤ 59 := by
  unfold mkDateTime at hmk
  split at hmk
  · cases hmk
    assumption
  · exact absurd hmk (by simp)

theorem mkDateTime_fields {y m d h mi : Nat} {dt : DateTime}
    (hmk : mkDateTime y m d h mi = some dt) : dt = ⟨y, m, d, h, mi⟩ := by
  unfold mkDateTime at hmk
  split at hmk
  · cases hmk
    rfl
  · exact absurd hmk (by simp)

/-- Claim C4: `get_datetime` parses a colon-free string with format
`YYYY-MM-DD`, yielding midnight of that date; a string containing a colon is
parsed with `YYYY-MM-DD HH:MM`, yielding that exact date and time; a string
matching neither format fails the parse and never yields a value: every
returned value is a valid calendar datetime, and the concrete examples
behave as specified. -/
theorem get_datetime_spec :
    (∀ (s : String) (dt : DateTime), s.data.contains ':' = false →
      get_datetime s = some dt → dt.hour = 0 ∧ dt.minute = 0) ∧
    get_datetime "2022-03-01" = some ⟨2022, 3, 1, 0, 0⟩ ∧
    get_datetime "2022-03-01 14:30" = some ⟨2022, 3, 1, 14, 30⟩ ∧
    get_datetime "2022/03/01" = none ∧
    get_datetime "2022-02-30" = none ∧
    get_datetime "2022-03-01T14:30" = none ∧
    (∀ (s : String) (dt : DateTime), get_datetime s = some dt →
      1 ≤ dt.year ∧ dt.year ≤ 9999 ∧ 1 ≤ dt.month ∧ dt.month ≤ 12 ∧
        1 ≤ dt.day ∧ dt.day ≤ daysInMonth dt.year dt.month ∧
        dt.hour ≤ 23 ∧ dt.minute ≤ 59) := by
  refine ⟨?_, by decide, by decide, by decide, by decide, by decide, ?_⟩
  · intro s dt hc h
    unfold get_datetime at h
    rw [hc] at h
    simp only [Bool.false_eq_true, if_false] at h
    unfold strptimeDate at h
    rcases hm : matchDateOnly s.data with - | ⟨y, m, d⟩
    · rw [hm] at h
      exact absurd h (by simp)
    · rw [hm] at h
      have h' : mkDateTime y m d 0 0 = some dt := h
      rw [mkDateTime_fields h']
      exact ⟨rfl, rfl⟩
  · intro s dt h
    unfold get_datetime at h
    split at h
    · unfold strptimeDateTime at h
      rcases hm : matchDateTime s.data with - | ⟨y, m, d, hh, mi⟩
      · rw [hm] at h
        exact absurd h (by simp)
      · rw [hm] at h
        have h' : mkDateTime y m d hh mi = some dt := h
        exact mkDateTime_valid h'
    · unfold strptimeDate at h
      rcases hm : matchDateOnly s.data with - | ⟨y, m, d⟩
      · rw [hm] at h
        exact absurd h (by simp)
      · rw [hm] at h
        have h' : mkDateTime y m d 0 0 = some dt := h
        exact mkDateTime_valid h'

/-- Witness for C4: the general conjuncts applied at a concrete parse. -/
theorem get_datetime_spec_witness :
    DateTime.hour ⟨2022, 3, 1, 0, 0⟩ = 0 ∧ DateTime.minute ⟨2022, 3, 1, 0, 0⟩ = 0 :=
  get_datetime_spec.1 "2022-03-01" ⟨2022, 3, 1, 0, 0⟩ (by decide) get_datetime_spec.2.1

theorem resolve_cache_maxsize {α : Type} [DecidableEq α] (s : RState α) (k : α) :
    (resolve s k).2.1.cache.maxsize = s.cache.maxsize := by
  unfold resolve
  cases h : s.cache.lookup k with
  | some v => rfl
  | none => rfl

theorem resolve_cache_bound {α : Type} [DecidableEq α] (s : RState α) (k : α) :
    (resolve s k).2.1.cache.entries.length ≤ s.cache.maxsize := by
  unfold resolve
  cases h : s.cache.lookup k with
  | some v => exact Lru.length_put_le _ _ _
  | none => exact Lru.length_put_le _ _ _

theorem runResolves_cache_bound {α : Type} [DecidableEq α] (s : RState α) (ks : List α)
    (h : s.cache.entries.length ≤ s.cache.maxsize) :
    (runResolves s ks).2.cache.entries.length ≤ s.cache.maxsize := by
  induction ks generalizing s with
  | nil => exact h
  | cons k ks ih =>
    unfold runResolves
    simp only
    have hb := resolve_cache_bound s k
    have hm := resolve_cache_maxsize s k
    have := ih (resolve s k).2.1 (by rw [hm]; exact hb)
    rwa [hm] at this

/-- The `lru_cache` eviction on a miss: the new entry goes to the front and only
the `maxsize - 1` most recently used old entries survive; everything beyond
that — the least recently used tail — is discarded. -/
theorem Lru.put_of_lookup_none {α : Type} [DecidableEq α] (c : Lru α) (k : α) (v : Nat)
    (hmax : 1 ≤ c.maxsize) (h : c.lookup k = none) :
    (c.put k v).entries = (k, v) :: c.entries.take (c.maxsize - 1) := by
  unfold Lru.lookup at h
  have hfind : c.entries.find? (fun e => e.1 = k) = none := by
    cases hf : c.entries.find? (fun e => e.1 = k) with
    | none => rfl
    | some e => rw [hf] at h; exact absurd h (by simp)
  have hall := List.find?_eq_none.mp hfind
  unfold Lru.put
  have hfilter : c.entries.filter (fun e => e.1 ≠ k) = c.entries := by
    rw [List.filter_eq_self]
    intro e he
    have := hall e he
    simpa using this
  rw [hfilter]
  obtain ⟨m, hm⟩ := Nat.exists_eq_add_of_le hmax
  rw [hm, Nat.add_comm]
  simp [List.take_succ_cons]

/-- Claim C5, counterexample: The claim says the event-period cache
(`get_attack_id`) is unbounded; in the source it is `lru_cache(maxsize=1)`.
Resolving two distinct event-period tuples evicts the first: the cache holds
one entry and no longer contains the first tuple. -/
theorem attack_cache_unbounded_counterexample :
    (let k1 : AttackKey := (⟨2022, 3, 1, 0, 0⟩, ⟨2022, 3, 1, 0, 0⟩, "a");
     let k2 : AttackKey := (⟨2022, 3, 2, 0, 0⟩, ⟨2022, 3, 2, 0, 0⟩, "b");
     let s1 := (resolve (⟨attackCacheInit, ⟨[], 0⟩⟩ : RState AttackKey) k1).2.1;
     let s2 := (resolve s1 k2).2.1;
     s2.cache.entries.length = 1 ∧ s2.cache.lookup k1 = none ∧
       attackCacheInit.maxsize = 1) := by
  decide

/-- Claim C5, amended: Throughout a run, the event-period cache holds at most
1 entry (`lru_cache(maxsize=1)`, not unbounded), while the place, target and
missile caches hold at most 500 entries; eviction keeps the most recently
used entries and discards the least recently used tail; a key whose entry
was evicted is re-queried on the next request and still yields the identity
recorded in the table. -/
theorem cache_discipline_amended :
    (∀ (t : Table AttackKey) (ks : List AttackKey),
      (runResolves ⟨attackCacheInit, t⟩ ks).2.cache.entries.length ≤ 1) ∧
    (∀ (t : Table String) (ks : List String),
      (runResolves ⟨placeCacheInit, t⟩ ks).2.cache.entries.length ≤ 500 ∧
      (runResolves ⟨targetCacheInit, t⟩ ks).2.cache.entries.length ≤ 500 ∧
      (runResolves ⟨missileCacheInit, t⟩ ks).2.cache.entries.length ≤ 500) ∧
    (∀ (c : Lru String) (k : String) (v : Nat), 1 ≤ c.maxsize → c.lookup k = none →
      (c.put k v).entries = (k, v) :: c.entries.take (c.maxsize - 1)) ∧
    (∀ (s : RState String), Coherent s → ∀ k,
      findPk (resolve s k).2.1.table k = some (resolve s k).1) := by
  refine ⟨?_, ?_, ?_, ?_⟩
  · intro t ks
    exact runResolves_cache_bound ⟨attackCacheInit, t⟩ ks (by simp [attackCacheInit])
  · intro t ks
    exact ⟨runResolves_cache_bound ⟨placeCacheInit, t⟩ ks (by simp [placeCacheInit]),
      runResolves_cache_bound ⟨targetCacheInit, t⟩ ks (by simp [targetCacheInit]),
      runResolves_cache_bound ⟨missileCacheInit, t⟩ ks (by simp [missileCacheInit])⟩
  · exact fun c k v hmax h => Lru.put_of_lookup_none c k v hmax h
  · exact fun s hC k => resolve_correct hC k

/-- Witness for C5 (amended), at concrete caches and keys. -/
theorem cache_discipline_amended_witness :
    ((runResolves (⟨attackCacheInit, ⟨[], 0⟩⟩ : RState AttackKey)
        [(⟨2022, 3, 1, 0, 0⟩, ⟨2022, 3, 1, 0, 0⟩, "a"),
         (⟨2022, 3, 2, 0, 0⟩, ⟨2022, 3, 2, 0, 0⟩, "b")]).2.cache.entries.length ≤ 1) ∧
    ((Lru.put ⟨[("Crimea", 0)], 1⟩ "Kherson" 5).entries =
      ("Kherson", 5) :: List.take (1 - 1) [("Crimea", 0)]) ∧
    (findPk (resolve (⟨⟨[], 500⟩, ⟨[], 0⟩⟩ : RState String) "Lviv").2.1.table "Lviv" =
      some (resolve (⟨⟨[], 500⟩, ⟨[], 0⟩⟩ : RState String) "Lviv").1) :=
  ⟨cache_discipline_amended.1 ⟨[], 0⟩ _,
   cache_discipline_amended.2.2.1 ⟨[("Crimea", 0)], 1⟩ "Kherson" 5 (by decide) (by decide),
   cache_discipline_amended.2.2.2 ⟨⟨[], 500⟩, ⟨[], 0⟩⟩
     (fun e he => absurd he (List.not_mem_nil e)) "Lviv"⟩

/-- Witness for C1 at a concrete table and value, exercising the branch where
a matching row already exists. -/
theorem db_searcher_find_or_create_witness :
    (db_searcher (⟨[(7, "Crimea")], 8⟩ : Table String) "Crimea").table =
        (⟨[(7, "Crimea")], 8⟩ : Table String) ∧
      (db_searcher (⟨[(7, "Crimea")], 8⟩ : Table String) "Crimea").inserted = false := by
  have h := (db_searcher_find_or_create (⟨[(7, "Crimea")], 8⟩ : Table String) "Crimea").2.1
    ⟨(7, "Crimea"), by simp, rfl⟩
  exact ⟨h.1, h.2.1⟩

/-! ## Lemmas about splitting and record processing -/
theorem string_eta (s : String) : String.mk s.data = s := by
  cases s
  rfl

/-- A value with no occurrence of `" and "` splits into the single name. -/
theorem splitAnd_of_not_hasAnd {s : String} (h : hasAnd s = false) :
    splitAnd s = [s] := by
  unfold hasAnd at h
  have hnone : findSep s.data = none := by
    cases hf : findSep s.data with
    | none => rfl
    | some i => rw [hf] at h; exact absurd h (by simp)
  unfold splitAnd
  cases hl : s.data.length with
  | zero => simp [splitFromF, string_eta]
  | succ n => simp [splitFromF, hnone, string_eta]

theorem recOk_dates {r : Rec} (hok : recOk r = true) :
    ∃ sdt edt, get_datetime r.time_start = some sdt ∧ get_datetime r.time_end = some edt := by
  unfold recOk at hok
  rcases hs : get_datetime r.time_start with - | sdt
  · rw [hs] at hok
    simp at hok
  · rcases he : get_datetime r.time_end with - | edt
    · rw [hs, he] at hok
      simp at hok
    · exact ⟨sdt, edt, rfl, rfl⟩

/-- Specification of one association loop: one association row per name, in
order; each name's resolved key is the one recorded in the final table; the
trace is one insert per name; the table only grows; coherence is kept. -/
theorem addAssocs_spec (mk : Nat → Nat → Op) (gid : Nat) (st : RState String)
    (names : List String) (hC : Coherent st) :
    ∃ pids,
      (addAssocs mk gid st names).2.1 = pids.map (fun p => (gid, p)) ∧
      (addAssocs mk gid st names).2.2 = pids.map (fun p => mk gid p) ∧
      List.Forall₂ (fun n p => findPk (addAssocs mk gid st names).1.table n = some p)
        names pids ∧
      Coherent (addAssocs mk gid st names).1 ∧
      ∃ ext, (addAssocs mk gid st names).1.table.rows = st.table.rows ++ ext := by
  induction names generalizing st with
  | nil => exact ⟨[], rfl, rfl, List.Forall₂.nil, hC, [], by simp [addAssocs]⟩
  | cons n ns ih =>
    have hcor := resolve_correct hC n
    have hC1 := resolve_coherent hC n
    obtain ⟨pids, h1, h2, h3, h4, ext, hext⟩ := ih (resolve st n).2.1 hC1
    refine ⟨(resolve st n).1 :: pids, ?_, ?_, ?_, ?_, ?_⟩
    · simp only [addAssocs, List.map_cons]
      rw [h1]
    · simp only [addAssocs, List.map_cons]
      rw [h2]
    · refine List.Forall₂.cons ?_ ?_
      · show findPk (addAssocs mk gid (resolve st n).2.1 ns).1.table n =
          some (resolve st n).1
        exact findPk_append hext hcor
      · exact h3
    · exact h4
    · obtain ⟨ext0, hext0, -, -⟩ := resolve_table_rows st n
      refine ⟨ext0 ++ ext, ?_⟩
      show (addAssocs mk gid (resolve st n).2.1 ns).1.table.rows = _
      rw [hext, hext0, List.append_assoc]

/-- Every trace element of an association loop is an insert for this group. -/
theorem addAssocs_ops_shape (mk : Nat → Nat → Op) (gid : Nat) (st : RState String)
    (names : List String) :
    ∀ op ∈ (addAssocs mk gid st names).2.2, ∃ p, op = mk gid p := by
  induction names generalizing st with
  | nil => intro op hop; exact absurd hop (List.not_mem_nil op)
  | cons n ns ih =>
    intro op hop
    simp only [addAssocs] at hop
    rcases List.mem_cons.mp hop with h | h
    · exact ⟨(resolve st n).1, h⟩
    · exact ih (resolve st n).2.1 op h

/-- Claim C7: Each multi-valued field (`launch_place`, `target`, `model`) is
split on the literal `" and "`; each resulting name is resolved
independently and produces exactly one association row for this record's
group, in order; a value with no separator occurrence is a single name
giving exactly one association row. -/
theorem record_splits_multivalue (pre : String) (cs : Caches) (db : DB) (r : Rec)
    (hok : recOk r = true)
    (hCp : Coherent ⟨cs.place, db.launch_places⟩)
    (hCt : Coherent ⟨cs.target, db.potential_targets⟩)
    (hCm : Coherent ⟨cs.missile, db.missiles⟩) :
    ∃ cs' db' ops, processRecord pre cs db r = .ok (cs', db', ops) ∧
      (∃ pids, List.Forall₂ (fun n p => findPk db'.launch_places n = some p)
          (splitAnd r.launch_place) pids ∧
        db'.group_launch_places = db.group_launch_places ++
          pids.map (fun p => (db.next_group_id, p))) ∧
      (∃ tids, List.Forall₂ (fun n p => findPk db'.potential_targets n = some p)
          (splitAnd r.target) tids ∧
        db'.group_targets = db.group_targets ++
          tids.map (fun p => (db.next_group_id, p))) ∧
      (∃ mids, List.Forall₂ (fun n p => findPk db'.missiles n = some p)
          (splitAnd r.model) mids ∧
        db'.group_missiles = db.group_missiles ++
          mids.map (fun p => (db.next_group_id, p))) ∧
      (∀ s : String, hasAnd s = false → splitAnd s = [s]) := by
  obtain ⟨sdt, edt, hs, he⟩ := recOk_dates hok
  obtain ⟨pids, hp1, -, hp3, -, -⟩ := addAssocs_spec Op.insertPlaceAssoc db.next_group_id
    ⟨cs.place, db.launch_places⟩ (splitAnd r.launch_place) hCp
  obtain ⟨tids, ht1, -, ht3, -, -⟩ := addAssocs_spec Op.insertTargetAssoc db.next_group_id
    ⟨cs.target, db.potential_targets⟩ (splitAnd r.target) hCt
  obtain ⟨mids, hm1, -, hm3, -, -⟩ := addAssocs_spec Op.insertMissileAssoc db.next_group_id
    ⟨cs.missile, db.missiles⟩ (splitAnd r.model) hCm
  simp only [processRecord, hs, he]
  refine ⟨_, _, _, rfl, ⟨pids, hp3, by rw [hp1]⟩, ⟨tids, ht3, by rw [ht1]⟩,
    ⟨mids, hm3, by rw [hm1]⟩, fun s h => splitAnd_of_not_hasAnd h⟩

theorem forall₂_singleton_left {γ δ : Type} {R : γ → δ → Prop} {a : γ} {l : List δ}
    (h : List.Forall₂ R [a] l) : ∃ b, l = [b] ∧ R a b := by
  cases h with
  | cons hhead htail =>
    cases htail
    exact ⟨_, rfl, hhead⟩

/-- Witness for C7 at a concrete record with value
`"Crimea and Kherson Oblast"` in the launch-place field. -/
theorem record_splits_multivalue_witness :
    ∃ cs' db' ops, processRecord "" cachesInit emptyDB recW = .ok (cs', db', ops) ∧
      (∃ pids, List.Forall₂ (fun n p => findPk db'.launch_places n = some p)
          (splitAnd recW.launch_place) pids ∧
        db'.group_launch_places = emptyDB.group_launch_places ++
          pids.map (fun p => (emptyDB.next_group_id, p))) ∧
      (∃ tids, List.Forall₂ (fun n p => findPk db'.potential_targets n = some p)
          (splitAnd recW.target) tids ∧
        db'.group_targets = emptyDB.group_targets ++
          tids.map (fun p => (emptyDB.next_group_id, p))) ∧
      (∃ mids, List.Forall₂ (fun n p => findPk db'.missiles n = some p)
          (splitAnd recW.model) mids ∧
        db'.group_missiles = emptyDB.group_missiles ++
          mids.map (fun p => (emptyDB.next_group_id, p))) ∧
      (∀ s : String, hasAnd s = false → splitAnd s = [s]) :=
  record_splits_multivalue "" cachesInit emptyDB recW (by decide)
    (fun e he => absurd he (List.not_mem_nil e))
    (fun e he => absurd he (List.not_mem_nil e))
    (fun e he => absurd he (List.not_mem_nil e))

/-- Claim C10: A record whose multi-valued field is the empty string is not
skipped: splitting yields the single name `""`, a lookup entity with the
empty display name is found-or-created, and exactly one association row
referencing it is inserted for this record's group. -/
theorem record_empty_field (pre : String) (cs : Caches) (db : DB) (r : Rec)
    (hok : recOk r = true)
    (hCp : Coherent ⟨cs.place, db.launch_places⟩)
    (hCt : Coherent ⟨cs.target, db.potential_targets⟩)
    (hCm : Coherent ⟨cs.missile, db.missiles⟩) :
    ∃ cs' db' ops, processRecord pre cs db r = .ok (cs', db', ops) ∧
      (r.launch_place = "" → ∃ pid, findPk db'.launch_places "" = some pid ∧
        db'.group_launch_places = db.group_launch_places ++ [(db.next_group_id, pid)]) ∧
      (r.target = "" → ∃ tid, findPk db'.potential_targets "" = some tid ∧
        db'.group_targets = db.group_targets ++ [(db.next_group_id, tid)]) ∧
      (r.model = "" → ∃ mid, findPk db'.missiles "" = some mid ∧
        db'.group_missiles = db.group_missiles ++ [(db.next_group_id, mid)]) := by
  obtain ⟨sdt, edt, hs, he⟩ := recOk_dates hok
  obtain ⟨pids, hp1, -, hp3, -, -⟩ := addAssocs_spec Op.insertPlaceAssoc db.next_group_id
    ⟨cs.place, db.launch_places⟩ (splitAnd r.launch_place) hCp
  obtain ⟨tids, ht1, -, ht3, -, -⟩ := addAssocs_spec Op.insertTargetAssoc db.next_group_id
    ⟨cs.target, db.potential_targets⟩ (splitAnd r.target) hCt
  obtain ⟨mids, hm1, -, hm3, -, -⟩ := addAssocs_spec Op.insertMissileAssoc db.next_group_id
    ⟨cs.missile, db.missiles⟩ (splitAnd r.model) hCm
  have hsplit_empty : splitAnd "" = [""] := rfl
  simp only [processRecord, hs, he]
  refine ⟨_, _, _, rfl, ?_, ?_, ?_⟩
  · intro hemp
    dsimp only
    rw [hemp] at hp3 hp1 ⊢
    rw [hsplit_empty] at hp3
    obtain ⟨pid, hpids, hpR⟩ := forall₂_singleton_left hp3
    rw [hpids] at hp1
    refine ⟨pid, ?_, ?_⟩
    · rw [hsplit_empty]
      exact hpR
    · rw [hp1]
      rfl
  · intro hemp
    dsimp only
    rw [hemp] at ht3 ht1 ⊢
    rw [hsplit_empty] at ht3
    obtain ⟨tid, htids, htR⟩ := forall₂_singleton_left ht3
    rw [htids] at ht1
    refine ⟨tid, ?_, ?_⟩
    · rw [hsplit_empty]
      exact htR
    · rw [ht1]
      rfl
  · intro hemp
    dsimp only
    rw [hemp] at hm3 hm1 ⊢
    rw [hsplit_empty] at hm3
    obtain ⟨mid, hmids, hmR⟩ := forall₂_singleton_left hm3
    rw [hmids] at hm1
    refine ⟨mid, ?_, ?_⟩
    · rw [hsplit_empty]
      exact hmR
    · rw [hm1]
      rfl

/-- Witness for C10 at a concrete record with all-empty multi-valued
fields. -/
theorem record_empty_field_witness :
    ∃ cs' db' ops, processRecord "" cachesInit emptyDB recE = .ok (cs', db', ops) ∧
      (recE.launch_place = "" → ∃ pid, findPk db'.launch_places "" = some pid ∧
        db'.group_launch_places = emptyDB.group_launch_places ++
          [(emptyDB.next_group_id, pid)]) ∧
      (recE.target = "" → ∃ tid, findPk db'.potential_targets "" = some tid ∧
        db'.group_targets = emptyDB.group_targets ++ [(emptyDB.next_group_id, tid)]) ∧
      (recE.model = "" → ∃ mid, findPk db'.missiles "" = some mid ∧
        db'.group_missiles = emptyDB.group_missiles ++ [(emptyDB.next_group_id, mid)]) :=
  record_empty_field "" cachesInit emptyDB recE (by decide)
    (fun e he => absurd he (List.not_mem_nil e))
    (fun e he => absurd he (List.not_mem_nil e))
    (fun e he => absurd he (List.not_mem_nil e))

/-- One fact-group row is appended per record, in source-sequence order,
with consecutive generated keys; launched/destroyed counts are carried
verbatim from each record. -/
theorem processChunk_groups (pre : String) :
    ∀ (recs : List Rec) (cs : Caches) (db : DB), (∀ r ∈ recs, recOk r = true) →
      ∃ cs' db' ops, processChunk pre cs db recs = .ok (cs', db', ops) ∧
        ∃ newRows, db'.attack_groups = db.attack_groups ++ newRows ∧
          List.Forall₂ (fun (row : GroupRow) (rec : Rec) =>
            row.units_launched = rec.launched ∧ row.units_destroyed = rec.destroyed)
            newRows recs ∧
          newRows.map GroupRow.group_id = List.range' db.next_group_id recs.length ∧
          db'.next_group_id = db.next_group_id + recs.length := by
  intro recs
  induction recs with
  | nil =>
    intro cs db h
    exact ⟨cs, db, [], rfl, [], by simp, List.Forall₂.nil, by simp [List.range'], by simp⟩
  | cons r rs ih =>
    intro cs db h
    obtain ⟨sdt, edt, hs, he⟩ := recOk_dates (h r (List.mem_cons_self r rs))
    simp only [processChunk, processRecord, hs, he]
    obtain ⟨cs', db', ops, hpc, newRows, hrows, hfa, hids, hnext⟩ :=
      ih _ _ (fun r' hr' => h r' (List.mem_cons_of_mem r hr'))
    rw [hpc]
    refine ⟨cs', db', _, rfl, ⟨db.next_group_id,
      (resolve ⟨cs.attack, db.attacks⟩ (sdt, edt, pre ++ r.source)).1,
      r.launched, r.destroyed⟩ :: newRows, ?_, ?_, ?_, ?_⟩
    · rw [hrows]
      simp
    · exact List.Forall₂.cons ⟨rfl, rfl⟩ hfa
    · simp only [List.map_cons, List.length_cons, List.range']
      rw [hids]
    · rw [hnext]
      simp only [List.length_cons]
      omega

/-- Claim C8: Records are processed strictly in source-sequence order, and
within every record the statements occur in the fixed order: resolve event
period, insert fact-group row, then place associations, then target
associations, then missile associations; the fact-group insert always
precedes every association insert of the record.  Source order is visible
in the fact-group table: one row per record, in input order, with
consecutive generated keys. -/
theorem import_op_order :
    (∀ (pre : String) (cs : Caches) (db : DB) (r : Rec), recOk r = true →
      ∃ cs' db' sdt edt aid pOps tOps mOps,
        get_datetime r.time_start = some sdt ∧ get_datetime r.time_end = some edt ∧
        processRecord pre cs db r = .ok (cs', db',
          Op.resolveAttack (sdt, edt, pre ++ r.source) aid ::
          Op.insertGroup db.next_group_id aid :: (pOps ++ tOps ++ mOps)) ∧
        (∀ op ∈ pOps, ∃ p, op = Op.insertPlaceAssoc db.next_group_id p) ∧
        (∀ op ∈ tOps, ∃ p, op = Op.insertTargetAssoc db.next_group_id p) ∧
        (∀ op ∈ mOps, ∃ p, op = Op.insertMissileAssoc db.next_group_id p)) ∧
    (∀ (pre : String) (cs : Caches) (db : DB) (recs : List Rec),
      (∀ r ∈ recs, recOk r = true) →
      ∃ cs' db' ops, processChunk pre cs db recs = .ok (cs', db', ops) ∧
        ∃ newRows, db'.attack_groups = db.attack_groups ++ newRows ∧
          List.Forall₂ (fun (row : GroupRow) (rec : Rec) =>
            row.units_launched = rec.launched ∧ row.units_destroyed = rec.destroyed)
            newRows recs ∧
          newRows.map GroupRow.group_id = List.range' db.next_group_id recs.length ∧
          db'.next_group_id = db.next_group_id + recs.length) := by
  constructor
  · intro pre cs db r hok
    obtain ⟨sdt, edt, hs, he⟩ := recOk_dates hok
    simp only [processRecord, hs, he]
    refine ⟨_, _, sdt, edt, _, _, _, _, rfl, rfl, rfl, ?_, ?_, ?_⟩
    · exact addAssocs_ops_shape Op.insertPlaceAssoc db.next_group_id
        ⟨cs.place, db.launch_places⟩ (splitAnd r.launch_place)
    · exact addAssocs_ops_shape Op.insertTargetAssoc db.next_group_id
        ⟨cs.target, db.potential_targets⟩ (splitAnd r.target)
    · exact addAssocs_ops_shape Op.insertMissileAssoc db.next_group_id
        ⟨cs.missile, db.missiles⟩ (splitAnd r.model)
  · intro pre cs db recs hok
    exact processChunk_groups pre recs cs db hok

/-- Witness for C8: the per-record statement order at a concrete record and
the group-row order for a concrete two-record chunk. -/
theorem import_op_order_witness :
    (∃ cs' db' sdt edt aid pOps tOps mOps,
      get_datetime recW.time_start = some sdt ∧ get_datetime recW.time_end = some edt ∧
      processRecord "" cachesInit emptyDB recW = .ok (cs', db',
        Op.resolveAttack (sdt, edt, "" ++ recW.source) aid ::
        Op.insertGroup emptyDB.next_group_id aid :: (pOps ++ tOps ++ mOps)) ∧
      (∀ op ∈ pOps, ∃ p, op = Op.insertPlaceAssoc emptyDB.next_group_id p) ∧
      (∀ op ∈ tOps, ∃ p, op = Op.insertTargetAssoc emptyDB.next_group_id p) ∧
      (∀ op ∈ mOps, ∃ p, op = Op.insertMissileAssoc emptyDB.next_group_id p)) ∧
    (∃ cs' db' ops, processChunk "" cachesInit emptyDB [recW, recE] = .ok (cs', db', ops) ∧
      ∃ newRows, db'.attack_groups = emptyDB.attack_groups ++ newRows ∧
        List.Forall₂ (fun (row : GroupRow) (rec : Rec) =>
          row.units_launched = rec.launched ∧ row.units_destroyed = rec.destroyed)
          newRows [recW, recE] ∧
        newRows.map GroupRow.group_id =
          List.range' emptyDB.next_group_id [recW, recE].length ∧
        db'.next_group_id = emptyDB.next_group_id + [recW, recE].length) :=
  ⟨import_op_order.1 "" cachesInit emptyDB recW (by decide),
   import_op_order.2 "" cachesInit emptyDB [recW, recE] (by decide)⟩

/-! ## Lemmas about chunking and the import loop -/
theorem getLast?_cons_ne_nil {γ : Type} {a : γ} {l : List γ} (h : l ≠ []) :
    (a :: l).getLast? = l.getLast? := by
  cases l with
  | nil => exact absurd rfl h
  | cons b bs => rfl

theorem dropLast_cons_ne_nil {γ : Type} {a : γ} {l : List γ} (h : l ≠ []) :
    (a :: l).dropLast = a :: l.dropLast := by
  cases l with
  | nil => exact absurd rfl h
  | cons b bs => rfl

theorem processRecord_error_of {pre : String} {cs : Caches} {db : DB} {r : Rec}
    (hok : recOk r = false) : ∃ e, processRecord pre cs db r = .error e := by
  unfold recOk at hok
  rcases hs : get_datetime r.time_start with - | sdt
  · exact ⟨.parseError r.time_start, by simp [processRecord, hs]⟩
  · rcases he : get_datetime r.time_end with - | edt
    · exact ⟨.parseError r.time_end, by simp [processRecord, hs, he]⟩
    · rw [hs, he] at hok
      simp at hok

theorem processChunk_error_of (pre : String) :
    ∀ (recs : List Rec) (cs : Caches) (db : DB), (¬ ∀ r ∈ recs, recOk r = true) →
      ∃ e, processChunk pre cs db recs = .error e := by
  intro recs
  induction recs with
  | nil =>
    intro cs db h
    exact absurd (fun r hr => absurd hr (List.not_mem_nil r)) h
  | cons r rs ih =>
    intro cs db h
    cases hok : recOk r with
    | false =>
      obtain ⟨e, he⟩ := @processRecord_error_of pre cs db r hok
      exact ⟨e, by simp [processChunk, he]⟩
    | true =>
      obtain ⟨sdt, edt, hs, hee⟩ := recOk_dates hok
      have hbad : ¬ ∀ r' ∈ rs, recOk r' = true := by
        intro hall
        refine h (fun r' hr' => ?_)
        rcases List.mem_cons.mp hr' with hr'' | hmem
        · rw [hr'']
          exact hok
        · exact hall r' hmem
      simp only [processChunk, processRecord, hs, hee]
      obtain ⟨e, he⟩ := ih _ _ hbad
      rw [he]
      exact ⟨e, rfl⟩

theorem chunkifyF_nil (b f : Nat) : chunkifyF b f [] = [] := by
  cases f with
  | zero => rfl
  | succ f => simp [chunkifyF]

theorem chunkifyF_break {b : Nat} (f : Nat) {recs : List Rec}
    (htake : recs.take b = []) : chunkifyF b (f + 1) recs = [] := by
  simp only [chunkifyF]
  rw [if_pos htake]

theorem chunkifyF_cons {b : Nat} (f : Nat) {recs : List Rec}
    (htake : recs.take b ≠ []) :
    chunkifyF b (f + 1) recs = recs.take b :: chunkifyF b f (recs.drop b) := by
  simp only [chunkifyF]
  rw [if_neg htake]

theorem chunkifyF_eq_nil {b f : Nat} {l : List Rec} (hf : 0 < f)
    (h : chunkifyF b f l = []) : l.take b = [] := by
  cases f with
  | zero => omega
  | succ f =>
    by_cases htake : l.take b = []
    · exact htake
    · rw [chunkifyF_cons f htake] at h
      exact absurd h (by simp)

theorem importLoopF_break (pre : String) {b : Nat} (f : Nat) (db : DB) (cs : Caches)
    {recs : List Rec} (htake : recs.take b = []) :
    importLoopF pre b (f + 1) db cs recs = ([], db, cs, none) := by
  show (if recs.take b = [] then ([], db, cs, none) else _) = _
  rw [if_pos htake]

theorem importLoopF_err (pre : String) {b : Nat} (f : Nat) (db : DB) (cs : Caches)
    {recs : List Rec} (htake : recs.take b ≠ []) {e : ImpError}
    (hpc : processChunk pre cs db (recs.take b) = .error e) :
    importLoopF pre b (f + 1) db cs recs = ([], db, cs, some e) := by
  show (if recs.take b = [] then ([], db, cs, none) else
    match processChunk pre cs db (recs.take b) with
    | .error e => ([], db, cs, some e)
    | .ok (cs', db', _) =>
      let rest := importLoopF pre b f db' cs' (recs.drop b)
      ((recs.take b).length :: rest.1, rest.2)) = _
  rw [if_neg htake, hpc]

theorem importLoopF_cons (pre : String) {b : Nat} (f : Nat) (db : DB) (cs : Caches)
    {recs : List Rec} (htake : recs.take b ≠ []) {cs' : Caches} {db' : DB} {ops : List Op}
    (hpc : processChunk pre cs db (recs.take b) = .ok (cs', db', ops)) :
    importLoopF pre b (f + 1) db cs recs =
      ((recs.take b).length :: (importLoopF pre b f db' cs' (recs.drop b)).1,
       (importLoopF pre b f db' cs' (recs.drop b)).2) := by
  show (if recs.take b = [] then ([], db, cs, none) else
    match processChunk pre cs db (recs.take b) with
    | .error e => ([], db, cs, some e)
    | .ok (cs', db', _) =>
      let rest := importLoopF pre b f db' cs' (recs.drop b)
      ((recs.take b).length :: rest.1, rest.2)) = _
  rw [if_neg htake, hpc]

/-- Per-chunk record counts: `⌈N/B⌉` chunks, all of size `B` except possibly
the last, whose size is `N mod B` (or `B` when `B` divides `N`). -/
theorem chunkLens_spec (b : Nat) (hb : 1 ≤ b) :
    ∀ (fuel : Nat) (recs : List Rec), recs.length < fuel →
      (((chunkifyF b fuel recs).map List.length).length = (recs.length + b - 1) / b) ∧
      (∀ n ∈ ((chunkifyF b fuel recs).map List.length).dropLast, n = b) ∧
      (0 < recs.length → ((chunkifyF b fuel recs).map List.length).getLast? =
        some (if recs.length % b = 0 then b else recs.length % b)) ∧
      (recs.length = 0 → (chunkifyF b fuel recs).map List.length = []) := by
  intro fuel
  induction fuel with
  | zero =>
    intro recs h
    omega
  | succ f ih =>
    intro recs h
    by_cases htake : recs.take b = []
    · have hrecs : recs = [] := by
        rcases List.take_eq_nil_iff.mp htake with h0 | h0
        · omega
        · exact h0
      subst hrecs
      rw [chunkifyF_break f htake]
      refine ⟨?_, by simp, by simp, fun _ => rfl⟩
      simp only [List.map_nil, List.length_nil]
      rw [Nat.div_eq_of_lt (by omega)]
    · have hb0 : b ≠ 0 ∧ recs ≠ [] := by
        constructor
        · intro h0
          exact htake (by rw [h0]; exact List.take_zero recs)
        · intro h0
          exact htake (by rw [h0]; simp)
      have hN : 1 ≤ recs.length := List.length_pos.mpr hb0.2
      have hNf : recs.length ≤ f := Nat.lt_succ_iff.mp h
      have hdroplen : (recs.drop b).length = recs.length - b := List.length_drop b recs
      have hdl : (recs.drop b).length < f := by omega
      obtain ⟨ih1, ih2, ih3, ih4⟩ := ih (recs.drop b) hdl
      rw [chunkifyF_cons f htake]
      have htlen : (recs.take b).length = min b recs.length := List.length_take b recs
      refine ⟨?_, ?_, ?_, ?_⟩
      · simp only [List.map_cons, List.length_cons]
        rw [ih1, hdroplen]
        rcases le_or_lt recs.length b with hle | hlt
        · have hz : recs.length - b = 0 := by omega
          rw [hz]
          rw [Nat.div_eq_of_lt (by omega : 0 + b - 1 < b)]
          rw [Nat.div_eq_of_lt_le (by omega : 1 * b ≤ recs.length + b - 1)
            (by omega : recs.length + b - 1 < (1 + 1) * b)]
        · have heq : recs.length + b - 1 = (recs.length - b + b - 1) + b := by omega
          rw [heq, Nat.add_div_right _ (by omega : 0 < b)]
      · simp only [List.map_cons]
        by_cases hrest : (chunkifyF b f (recs.drop b)).map List.length = []
        · rw [hrest]
          intro n hn
          exact absurd hn (by simp)
        · rw [dropLast_cons_ne_nil hrest]
          intro n hn
          rcases List.mem_cons.mp hn with hn' | hn'
          · have hdropne : recs.drop b ≠ [] := by
              intro h0
              exact hrest (by rw [h0, chunkifyF_nil]; rfl)
            have hbN : b < recs.length := by
              by_contra hle
              exact hdropne (List.drop_eq_nil_iff.mpr (by omega))
            rw [hn', htlen]
            omega
          · exact ih2 n hn'
      · intro hpos
        simp only [List.map_cons]
        by_cases hrest : (chunkifyF b f (recs.drop b)).map List.length = []
        · rw [hrest]
          have hdropnil : recs.drop b = [] := by
            have := chunkifyF_eq_nil (by omega : 0 < f) (List.map_eq_nil_iff.mp hrest)
            rcases List.take_eq_nil_iff.mp this with h0 | h0
            · omega
            · exact h0
          have hNb : recs.length ≤ b := by
            have := List.drop_eq_nil_iff.mp hdropnil
            omega
          rw [htlen]
          rcases Nat.eq_or_lt_of_le hNb with heq | hlt
          · rw [heq]
            simp [Nat.mod_self]
          · rw [Nat.mod_eq_of_lt hlt, if_neg (by omega)]
            have hmin : min b recs.length = recs.length := by omega
            rw [hmin]
            simp
        · rw [getLast?_cons_ne_nil hrest]
          have hdropne : recs.drop b ≠ [] := by
            intro h0
            exact hrest (by rw [h0, chunkifyF_nil]; rfl)
          have hbN : b < recs.length := by
            by_contra hle
            exact hdropne (List.drop_eq_nil_iff.mpr (by omega))
          have hMpos : 0 < (recs.drop b).length := List.length_pos.mpr hdropne
          rw [ih3 hMpos, hdroplen]
          have hsum : recs.length - b + b = recs.length := by omega
          have hmod : (recs.length - b) % b = recs.length % b := by
            conv_rhs => rw [← hsum]
            rw [Nat.add_mod_right]
          rw [hmod]
      · intro h0
        omega

/-- When every record parses, the run commits every chunk: the reports are
the chunk sizes, the final database is the committed composition, and no
error is raised. -/
theorem importLoopF_ok (pre : String) (b : Nat) :
    ∀ (fuel : Nat) (db : DB) (cs : Caches) (recs : List Rec), recs.length < fuel →
      (∀ r ∈ recs, recOk r = true) →
      importLoopF pre b fuel db cs recs =
        ((chunkifyF b fuel recs).map List.length,
         (commitChunks pre cs db (chunkifyF b fuel recs)).2,
         (commitChunks pre cs db (chunkifyF b fuel recs)).1, none) := by
  intro fuel
  induction fuel with
  | zero =>
    intro db cs recs h
    omega
  | succ f ih =>
    intro db cs recs h hok
    by_cases htake : recs.take b = []
    · rw [importLoopF_break pre f db cs htake, chunkifyF_break f htake]
      simp [commitChunks]
    · have hb0 : b ≠ 0 ∧ recs ≠ [] := by
        constructor
        · intro h0
          exact htake (by rw [h0]; exact List.take_zero recs)
        · intro h0
          exact htake (by rw [h0]; simp)
      have hN : 1 ≤ recs.length := List.length_pos.mpr hb0.2
      obtain ⟨cs', db', ops, hpc, -⟩ := processChunk_groups pre (recs.take b) cs db
        (fun r hr => hok r (List.mem_of_mem_take hr))
      have hdl : (recs.drop b).length < f := by
        rw [List.length_drop]
        omega
      rw [importLoopF_cons pre f db cs htake hpc, chunkifyF_cons f htake]
      rw [ih db' cs' (recs.drop b) hdl (fun r hr => hok r (List.mem_of_mem_drop hr))]
      simp only [List.map_cons, commitChunks, hpc]

/-- When some chunk contains an unparsable record, the run reports exactly
the earlier chunks, the final database is exactly their committed
composition — none of the failing chunk's rows persist — and the error
propagates. -/
theorem importLoopF_fail (pre : String) (b : Nat) :
    ∀ (fuel : Nat) (db : DB) (cs : Caches) (recs : List Rec)
      (done : List (List Rec)) (c : List Rec) (later : List (List Rec)),
      recs.length < fuel →
      chunkifyF b fuel recs = done ++ c :: later →
      (∀ r ∈ done.flatten, recOk r = true) →
      (¬ ∀ r ∈ c, recOk r = true) →
      (importLoopF pre b fuel db cs recs).1 = done.map List.length ∧
      (importLoopF pre b fuel db cs recs).2.1 = (commitChunks pre cs db done).2 ∧
      (importLoopF pre b fuel db cs recs).2.2.2.isSome = true := by
  intro fuel
  induction fuel with
  | zero =>
    intro db cs recs done c later h
    omega
  | succ f ih =>
    intro db cs recs done c later h hsplit hgood hbad
    by_cases htake : recs.take b = []
    · rw [chunkifyF_break f htake] at hsplit
      exact absurd hsplit.symm (by simp)
    · rw [chunkifyF_cons f htake] at hsplit
      have hb0 : b ≠ 0 ∧ recs ≠ [] := by
        constructor
        · intro h0
          exact htake (by rw [h0]; exact List.take_zero recs)
        · intro h0
          exact htake (by rw [h0]; simp)
      have hN : 1 ≤ recs.length := List.length_pos.mpr hb0.2
      have hdl : (recs.drop b).length < f := by
        rw [List.length_drop]
        omega
      cases done with
      | nil =>
        have hc : recs.take b = c := by
          have := hsplit
          simp only [List.nil_append] at this
          exact (List.cons_eq_cons.mp this).1
        obtain ⟨e, he⟩ := processChunk_error_of pre c cs db hbad
        rw [← hc] at he
        rw [importLoopF_err pre f db cs htake he]
        exact ⟨rfl, rfl, rfl⟩
      | cons d done' =>
        simp only [List.cons_append] at hsplit
        obtain ⟨hd, hrest⟩ := List.cons_eq_cons.mp hsplit
        have hdok : ∀ r ∈ d, recOk r = true := by
          intro r hr
          refine hgood r ?_
          rw [List.flatten_cons]
          exact List.mem_append_left _ hr
        obtain ⟨cs', db', ops, hpc, -⟩ := processChunk_groups pre d cs db hdok
        rw [← hd] at hpc
        rw [importLoopF_cons pre f db cs htake hpc]
        have hgood' : ∀ r ∈ done'.flatten, recOk r = true := by
          intro r hr
          refine hgood r ?_
          rw [List.flatten_cons]
          exact List.mem_append_right _ hr
        obtain ⟨ih1, ih2, ih3⟩ := ih db' cs' (recs.drop b) done' c later hdl hrest hgood' hbad
        refine ⟨?_, ?_, ih3⟩
        · simp only [List.map_cons, ih1, hd]
        · simp only [ih2, commitChunks, hd, hpc]
          rw [hd] at hpc
          simp [commitChunks, hpc]

theorem import_dataset_natCast (pre : String) (db : DB) (cs : Caches)
    (recs : List Rec) (b : Nat) :
    import_dataset pre db cs recs (b : Int) =
      importLoopF pre b (recs.length + 1) db cs recs := by
  unfold import_dataset
  rw [if_neg (Int.not_lt.mpr (Int.natCast_nonneg b))]
  norm_num

/-- Claim C2: Chunk-level transactional atomicity: when every record parses,
every chunk commits (the final database is the committed composition of all
chunks, one report per chunk, no error); when some chunk contains a failing
record, the final database is exactly the composition of the earlier,
committed chunks — none of the failing chunk's fact-group, lookup-insert or
association rows persist — the reports cover exactly the earlier chunks,
and the error propagates. -/
theorem import_chunk_atomicity (pre : String) (db : DB) (cs : Caches)
    (b : Nat) (recs : List Rec) :
    ((∀ r ∈ recs, recOk r = true) →
      import_dataset pre db cs recs (b : Int) =
        ((chunkify b recs).map List.length,
         (commitChunks pre cs db (chunkify b recs)).2,
         (commitChunks pre cs db (chunkify b recs)).1, none)) ∧
    (∀ (done : List (List Rec)) (c : List Rec) (later : List (List Rec)),
      chunkify b recs = done ++ c :: later →
      (∀ r ∈ done.flatten, recOk r = true) →
      (¬ ∀ r ∈ c, recOk r = true) →
      (import_dataset pre db cs recs (b : Int)).1 = done.map List.length ∧
      (import_dataset pre db cs recs (b : Int)).2.1 = (commitChunks pre cs db done).2 ∧
      (import_dataset pre db cs recs (b : Int)).2.2.2.isSome = true) := by
  constructor
  · intro hok
    rw [import_dataset_natCast]
    exact importLoopF_ok pre b (recs.length + 1) db cs recs (by omega) hok
  · intro done c later hsplit hgood hbad
    rw [import_dataset_natCast]
    exact importLoopF_fail pre b (recs.length + 1) db cs recs done c later
      (by omega) hsplit hgood hbad

/-- Witness for C2: batch size 1, a good record then an unparsable one; the
run keeps exactly the first chunk's rows and aborts. -/
theorem import_chunk_atomicity_witness :
    (import_dataset "" emptyDB cachesInit [recW, recBad] ((1 : Nat) : Int)).1 =
      ([[recW]] : List (List Rec)).map List.length ∧
    (import_dataset "" emptyDB cachesInit [recW, recBad] ((1 : Nat) : Int)).2.1 =
      (commitChunks "" cachesInit emptyDB [[recW]]).2 ∧
    (import_dataset "" emptyDB cachesInit [recW, recBad] ((1 : Nat) : Int)).2.2.2.isSome
      = true :=
  (import_chunk_atomicity "" emptyDB cachesInit 1 [recW, recBad]).2
    [[recW]] [recBad] [] (by decide) (by decide) (by decide)

/-- Claim C3: Chunking correctness: for `N` input records and batch size
`B ≥ 1` with all records parsing, the driver performs exactly `⌈N/B⌉`
commit cycles; every cycle except possibly the last processes exactly `B`
records; the last processes `N mod B` records (or `B` when `B` divides
`N`); for `N = 0` there is no commit cycle. -/
theorem import_chunking (pre : String) (db : DB) (cs : Caches)
    (b : Nat) (hb : 1 ≤ b) (recs : List Rec) (hok : ∀ r ∈ recs, recOk r = true) :
    ((import_dataset pre db cs recs (b : Int)).1.length = (recs.length + b - 1) / b) ∧
    (∀ n ∈ (import_dataset pre db cs recs (b : Int)).1.dropLast, n = b) ∧
    (0 < recs.length → (import_dataset pre db cs recs (b : Int)).1.getLast? =
      some (if recs.length % b = 0 then b else recs.length % b)) ∧
    (recs.length = 0 → (import_dataset pre db cs recs (b : Int)).1 = []) := by
  have hrep : (import_dataset pre db cs recs (b : Int)).1 =
      (chunkifyF b (recs.length + 1) recs).map List.length := by
    rw [import_dataset_natCast,
      importLoopF_ok pre b (recs.length + 1) db cs recs (by omega) hok]
  rw [hrep]
  exact chunkLens_spec b hb (recs.length + 1) recs (by omega)

/-- Witness for C3: three records, batch size 2 — two cycles, the last of
one record. -/
theorem import_chunking_witness :
    ((import_dataset "" emptyDB cachesInit [recW, recE, recE] ((2 : Nat) : Int)).1.length =
      (([recW, recE, recE] : List Rec).length + 2 - 1) / 2) ∧
    (∀ n ∈ (import_dataset "" emptyDB cachesInit [recW, recE, recE]
        ((2 : Nat) : Int)).1.dropLast, n = 2) ∧
    (0 < ([recW, recE, recE] : List Rec).length →
      (import_dataset "" emptyDB cachesInit [recW, recE, recE] ((2 : Nat) : Int)).1.getLast? =
        some (if ([recW, recE, recE] : List Rec).length % 2 = 0 then 2
          else ([recW, recE, recE] : List Rec).length % 2)) ∧
    (([recW, recE, recE] : List Rec).length = 0 →
      (import_dataset "" emptyDB cachesInit [recW, recE, recE] ((2 : Nat) : Int)).1 = []) :=
  import_chunking "" emptyDB cachesInit 2 (by decide) [recW, recE, recE] (by decide)

/-- Claim C9: `block_size = 0` terminates at once: no statement executes, no
record is consumed, no block report is produced, and no error is raised.  A
negative `block_size` makes the first `islice` call raise `ValueError`
before any record is processed or any write occurs. -/
theorem import_block_size_edge (pre : String) (db : DB) (cs : Caches) (recs : List Rec) :
    import_dataset pre db cs recs 0 = ([], db, cs, none) ∧
    (∀ bs : Int, bs < 0 →
      import_dataset pre db cs recs bs = ([], db, cs, some .badBlockSize)) := by
  constructor
  · have h0 : import_dataset pre db cs recs 0 =
        importLoopF pre 0 (recs.length + 1) db cs recs := by
      unfold import_dataset
      rw [if_neg (by omega)]
      rfl
    rw [h0, importLoopF_break pre recs.length db cs (List.take_zero recs)]
  · intro bs hbs
    unfold import_dataset
    rw [if_pos hbs]

/-- Witness for C9: a negative block size on a non-empty input aborts before
touching the database. -/
theorem import_block_size_edge_witness :
    import_dataset "" emptyDB cachesInit [recW] (-1) =
      ([], emptyDB, cachesInit, some .badBlockSize) :=
  (import_block_size_edge "" emptyDB cachesInit [recW]).2 (-1) (by decide)

end DbLab
